import Mathlib

/-!
Verification of the raster-pipeline stage-composition core of tiny-skia
(`src/skia-pipeline/SkRasterPipeline.cpp`, `SkRasterPipeline.h`, `SkOpts.h`).

The C code links a singly-linked `StageList` into a flat program of
interleaved function pointers and context pointers, written backwards from
`bufferEnd` (`ip`).  It first attempts the reduced-precision (lowp) tier and
falls back to the full-precision (highp) tier when some stage kind has a null
entry in `SkOpts::stages_lowp`.

Shallow embedding conventions:
* `StockStage` (a closed C enum) is embedded as its underlying index `Nat`.
* The stage tables `SkOpts::stages_lowp` / `stages_highp` live outside the
  sources (populated from `SkRasterPipeline_opts.h`); they are parameters of
  the embedding.  A lowp table entry may be null: the parameter
  `stages_lowp : Nat → Bool` records non-nullness of the entry, exactly the
  test `if (auto fn = SkOpts::stages_lowp[st->stage])`.  The value stored in a
  program slot is abstracted by its provenance: which table it came from and
  for which stage kind (`Slot.fnLowp` / `Slot.fnHighp`), the two sentinels
  `just_return_lowp` / `just_return_highp`, or a context pointer value.
* The caller buffer is a total function `Int → Slot`; the write cursor `ip`
  is a slot index (`bufferEnd` is the caller's initial `ip`), and
  `*--ip = v` becomes `Function.update buf (ip - 1) v` with cursor `ip - 1`.
* The `ctx` field of a `StageList` node is a possibly-null pointer: `Option`
  with `none` for null, mirroring the `if (st->ctx)` test.
* The chain `stages → stages->prev → … → null` is embedded as a Lean list in
  walk order: head of the list = the `stages` pointer (most recently
  appended node), last element = the oldest node (whose `prev` is null).
-/

/-- A `StageList` node of `SkRasterPipeline.h`: `stage` is the `StockStage`
enum value, `ctx` the possibly-null context pointer (`none` = null).  The
`prev` pointer is represented by the position in a Lean list (walk order). -/
structure StageList where
  stage : Nat
  ctx : Option Nat
deriving DecidableEq, Repr

/-- The contents of one `void*` slot of the program buffer, abstracted by
provenance: `fnLowp s` is the value `SkOpts::stages_lowp[s]`, `fnHighp s` is
`SkOpts::stages_highp[s]`, the two sentinels are `SkOpts::just_return_lowp`
and `SkOpts::just_return_highp`, and `ctxVal c` is a context pointer. -/
inductive Slot where
  | fnLowp (s : Nat)
  | fnHighp (s : Nat)
  | justReturnLowp
  | justReturnHighp
  | ctxVal (c : Nat)
deriving DecidableEq, Repr

/-- The two possible return values of `build_pipeline`:
`SkOpts::start_pipeline_lowp` and `SkOpts::start_pipeline_highp`. -/
inductive StartPipelineFn where
  | start_pipeline_lowp
  | start_pipeline_highp
deriving DecidableEq, Repr, BEq

/-- One buffer write `*--ip = v` updates the slot at index `i = ip - 1`. -/
def wr (buf : Int → Slot) (i : Int) (v : Slot) : Int → Slot :=
  Function.update buf i v

/-- The first (reduced-tier) loop of `build_pipeline`: walk the list from the
head; for a stage whose lowp table entry is non-null write the context pointer
(when non-null) and then the function pointer, otherwise reset the cursor to
`reset_point` and break (`ip = reset_point; break`).  Returns the buffer and
the final cursor. -/
def lowpLoop (stages_lowp : Nat → Bool) (reset_point : Int) :
    List StageList → (Int → Slot) → Int → ((Int → Slot) × Int)
  | [], buf, ip => (buf, ip)
  | st :: rest, buf, ip =>
    if stages_lowp st.stage then
      match st.ctx with
      | some c =>
          lowpLoop stages_lowp reset_point rest
            (wr (wr buf (ip - 1) (Slot.ctxVal c)) (ip - 2) (Slot.fnLowp st.stage)) (ip - 2)
      | none =>
          lowpLoop stages_lowp reset_point rest
            (wr buf (ip - 1) (Slot.fnLowp st.stage)) (ip - 1)
    else
      (buf, reset_point)

/-- The second (full-tier) loop of `build_pipeline`: walk the list from the
head writing, for every stage, the context pointer (when non-null) and then
the highp function pointer. -/
def highpLoop :
    List StageList → (Int → Slot) → Int → ((Int → Slot) × Int)
  | [], buf, ip => (buf, ip)
  | st :: rest, buf, ip =>
    match st.ctx with
    | some c =>
        highpLoop rest
          (wr (wr buf (ip - 1) (Slot.ctxVal c)) (ip - 2) (Slot.fnHighp st.stage)) (ip - 2)
    | none =>
        highpLoop rest (wr buf (ip - 1) (Slot.fnHighp st.stage)) (ip - 1)

/-- `build_pipeline` of `SkRasterPipeline.cpp`: write the lowp sentinel, run
the lowp loop; if the cursor moved (no stage lacked a lowp entry) return it
with `start_pipeline_lowp`, else write the highp sentinel from `reset_point`
and run the highp loop, returning `start_pipeline_highp`.  The result is the
final buffer, the final cursor (the program start) and the returned entry
point. -/
def build_pipeline (stages_lowp : Nat → Bool) (stages : List StageList)
    (buf : Int → Slot) (ip : Int) : (Int → Slot) × Int × StartPipelineFn :=
  let reset_point := ip
  let p1 := lowpLoop stages_lowp reset_point stages
    (wr buf (ip - 1) Slot.justReturnLowp) (ip - 1)
  if p1.2 ≠ reset_point then
    (p1.1, p1.2, StartPipelineFn.start_pipeline_lowp)
  else
    let p2 := highpLoop stages
      (wr p1.1 (p1.2 - 1) Slot.justReturnHighp) (p1.2 - 1)
    (p2.1, p2.2, StartPipelineFn.start_pipeline_highp)

/-- `skia_pipe_raster_build_pipeline`: calls `build_pipeline` and returns
whether the returned entry point equals `SkOpts::start_pipeline_highp`. -/
def skia_pipe_raster_build_pipeline (stages_lowp : Nat → Bool)
    (stages : List StageList) (buf : Int → Slot) (ip : Int) :
    ((Int → Slot) × Int) × Bool :=
  let r := build_pipeline stages_lowp stages buf ip
  ((r.1, r.2.1), r.2.2 == StartPipelineFn.start_pipeline_highp)

/-- Number of slots the full-tier loop writes for a list: one function-pointer
slot per stage plus one slot per non-null context. -/
def slotCount : List StageList → Nat
  | [] => 0
  | st :: rest => (match st.ctx with | some _ => 2 | none => 1) + slotCount rest

/-- Read `n` consecutive slots of `buf` starting (inclusive) at index `lo`,
in increasing address order — the replay order of the program. -/
def readSlots (buf : Int → Slot) (lo : Int) : Nat → List Slot
  | 0 => []
  | n + 1 => buf lo :: readSlots buf (lo + 1) n

/-- The slice of the buffer from `lo` (inclusive) to `hi` (exclusive), in
replay order. -/
def progRegion (buf : Int → Slot) (lo hi : Int) : List Slot :=
  readSlots buf lo (hi - lo).toNat

/-- The slots one stage contributes to the program in replay order, for the
full tier: the function pointer, then the context pointer when present. -/
def stageSlotsHighp (st : StageList) : List Slot :=
  Slot.fnHighp st.stage :: (match st.ctx with | some c => [Slot.ctxVal c] | none => [])

/-- The slots one stage contributes to the program in replay order, for the
reduced tier. -/
def stageSlotsLowp (st : StageList) : List Slot :=
  Slot.fnLowp st.stage :: (match st.ctx with | some c => [Slot.ctxVal c] | none => [])

/-- The per-stage replay slots of the tier selected by `build_pipeline`. -/
def stageSlots : StartPipelineFn → StageList → List Slot
  | StartPipelineFn.start_pipeline_lowp => stageSlotsLowp
  | StartPipelineFn.start_pipeline_highp => stageSlotsHighp

/-- The sentinel slot of the tier selected by `build_pipeline`. -/
def sentinelSlot : StartPipelineFn → Slot
  | StartPipelineFn.start_pipeline_lowp => Slot.justReturnLowp
  | StartPipelineFn.start_pipeline_highp => Slot.justReturnHighp

/-- A slot holds full-tier data: a highp function pointer, a context pointer
written by the highp pass, or the highp sentinel. -/
def isFullTierSlot : Slot → Bool
  | Slot.fnHighp _ => true
  | Slot.ctxVal _ => true
  | Slot.justReturnHighp => true
  | _ => false

/-- The observable behaviour of `skia_pipe_raster_run_pipeline`: which tier
entry point it invokes and the five arguments it passes to it. -/
structure PipelineCall where
  fn : StartPipelineFn
  x0 : Nat
  y0 : Nat
  x1 : Nat
  y1 : Nat
  program : Nat
deriving DecidableEq, Repr

/-- `skia_pipe_raster_run_pipeline` of `SkRasterPipeline.cpp`.  The defining
declaration takes `unsigned int` (32-bit) coordinates — although the public
header `SkRasterPipeline.h` declares them `size_t` — so every argument is
reduced modulo `2^32` at the call boundary and `x+w`, `y+h` are computed in
32-bit unsigned arithmetic.  It calls `SkOpts::start_pipeline_highp` when
`is_highp` is true and `SkOpts::start_pipeline_lowp` otherwise, with
arguments `(x, y, x+w, y+h, program)`, and does nothing else; the embedding
returns the record of that single call.  The `void** program` pointer is an
opaque value. -/
def skia_pipe_raster_run_pipeline (program : Nat) (is_highp : Bool)
    (x y w h : Nat) : PipelineCall :=
  let xv := x % 4294967296
  let yv := y % 4294967296
  let wv := w % 4294967296
  let hv := h % 4294967296
  if is_highp then
    { fn := StartPipelineFn.start_pipeline_highp, x0 := xv, y0 := yv,
      x1 := (xv + wv) % 4294967296, y1 := (yv + hv) % 4294967296,
      program := program }
  else
    { fn := StartPipelineFn.start_pipeline_lowp, x0 := xv, y0 := yv,
      x1 := (xv + wv) % 4294967296, y1 := (yv + hv) % 4294967296,
      program := program }

/-- A `StageList` node as it sits in caller-owned memory, for the
memory-level embedding: `prev` is the address of the previous node
(`none` = null pointer). -/
structure StageNodeMem where
  prev : Option Nat
  stage : Nat
  ctx : Option Nat
deriving DecidableEq, Repr

/-- The memory `build_pipeline` can observe or modify: the program buffer
(slot-indexed) and the caller-owned `StageList` nodes (addressed by `Nat`). -/
structure Mem where
  buf : Int → Slot
  nodes : Nat → StageNodeMem

/-- Memory-level reduced-tier loop of `build_pipeline`, walking the `prev`
chain through the node heap.  `fuel` bounds the walk so the Lean function is
total; the C loop `for (st = stages; st; st = st->prev)` performs exactly
these heap reads and buffer writes and never stores to a node. -/
def lowpLoopMem (L : Nat → Bool) (rp : Int) :
    Nat → Mem → Option Nat → Int → (Mem × Int)
  | 0, m, _, ip => (m, ip)
  | _ + 1, m, none, ip => (m, ip)
  | fuel + 1, m, some a, ip =>
      let st := m.nodes a
      if L st.stage then
        match st.ctx with
        | some c =>
            let buf2 := wr (wr m.buf (ip - 1) (Slot.ctxVal c)) (ip - 2) (Slot.fnLowp st.stage)
            lowpLoopMem L rp fuel { m with buf := buf2 } st.prev (ip - 2)
        | none =>
            lowpLoopMem L rp fuel
              { m with buf := wr m.buf (ip - 1) (Slot.fnLowp st.stage) }
              st.prev (ip - 1)
      else
        (m, rp)

/-- Memory-level full-tier loop of `build_pipeline`. -/
def highpLoopMem :
    Nat → Mem → Option Nat → Int → (Mem × Int)
  | 0, m, _, ip => (m, ip)
  | _ + 1, m, none, ip => (m, ip)
  | fuel + 1, m, some a, ip =>
      let st := m.nodes a
      match st.ctx with
      | some c =>
          let buf2 := wr (wr m.buf (ip - 1) (Slot.ctxVal c)) (ip - 2) (Slot.fnHighp st.stage)
          highpLoopMem fuel { m with buf := buf2 } st.prev (ip - 2)
      | none =>
          highpLoopMem fuel
            { m with buf := wr m.buf (ip - 1) (Slot.fnHighp st.stage) }
            st.prev (ip - 1)

/-- Memory-level `build_pipeline`: same control flow as `build_pipeline`, but
over the explicit node heap, so that the absence of writes to `StageList`
nodes is a provable statement rather than a modelling assumption. -/
def build_pipeline_mem (L : Nat → Bool) (fuel : Nat) (m : Mem)
    (stages : Option Nat) (ip : Int) : Mem × Int × StartPipelineFn :=
  let reset_point := ip
  let p1 := lowpLoopMem L reset_point fuel
    { m with buf := wr m.buf (ip - 1) Slot.justReturnLowp } stages (ip - 1)
  if p1.2 ≠ reset_point then
    (p1.1, p1.2, StartPipelineFn.start_pipeline_lowp)
  else
    let p2 := highpLoopMem fuel
      { p1.1 with buf := wr p1.1.buf (p1.2 - 1) Slot.justReturnHighp }
      stages (p1.2 - 1)
    (p2.1, p2.2, StartPipelineFn.start_pipeline_highp)

/-- Modelled from the spec: the tier entry points
`SkOpts::start_pipeline_highp` / `SkOpts::start_pipeline_lowp` are
implemented in `SkRasterPipeline_opts.h`, which is not among the sources.
Per spec §4.3 the executor processes one row of a width-`W` rectangle in
chunks: full chunks of the tier's batch width `S` while at least `S` columns
remain, then one tail chunk holding the remaining columns.  This function
returns the widths of the chunks of one row, in processing order. -/
def rowChunkWidths (S W : Nat) : List Nat :=
  if _h : 0 < S ∧ S ≤ W then
    S :: rowChunkWidths S (W - S)
  else if W = 0 then [] else [W]
termination_by W
decreasing_by omega

/-! ### Basic lemmas about buffer slices and writes -/

theorem wr_same (buf : Int → Slot) (i : Int) (v : Slot) : wr buf i v i = v := by
  simp [wr]

theorem wr_other (buf : Int → Slot) (i : Int) (v : Slot) (j : Int) (h : j ≠ i) :
    wr buf i v j = buf j := by
  simp [wr, Function.update_apply, h]

theorem readSlots_append (buf : Int → Slot) (lo : Int) (n m : Nat) :
    readSlots buf lo (n + m) = readSlots buf lo n ++ readSlots buf (lo + n) m := by
  induction n generalizing lo with
  | zero => simp [readSlots]
  | succ k ih =>
      have hnm : k + 1 + m = (k + m) + 1 := by omega
      rw [hnm]
      simp only [readSlots, ih, List.cons_append]
      have : lo + 1 + (k : Int) = lo + ((k : Nat) + 1 : Nat) := by push_cast; ring
      rw [this]

theorem readSlots_congr (buf buf' : Int → Slot) (lo : Int) (n : Nat)
    (h : ∀ j, lo ≤ j → j < lo + n → buf j = buf' j) :
    readSlots buf lo n = readSlots buf' lo n := by
  induction n generalizing lo with
  | zero => simp [readSlots]
  | succ k ih =>
      simp only [readSlots]
      rw [h lo le_rfl (by push_cast; omega),
        ih (lo + 1) (fun j hj1 hj2 => h j (by omega) (by push_cast at hj2 ⊢; omega))]

theorem readSlots_one (buf : Int → Slot) (lo : Int) : readSlots buf lo 1 = [buf lo] := by
  simp [readSlots]

theorem readSlots_two (buf : Int → Slot) (lo : Int) :
    readSlots buf lo 2 = [buf lo, buf (lo + 1)] := by
  simp [readSlots]

/-! ### Characterization of the full-tier (highp) loop -/

theorem highpLoop_spec (stages : List StageList) (buf : Int → Slot) (ip : Int) :
    (highpLoop stages buf ip).2 = ip - slotCount stages ∧
    (∀ j, ip ≤ j ∨ j < ip - slotCount stages → (highpLoop stages buf ip).1 j = buf j) ∧
    readSlots (highpLoop stages buf ip).1 (ip - slotCount stages) (slotCount stages) =
      stages.reverse.flatMap stageSlotsHighp := by
  induction stages generalizing buf ip with
  | nil => simp [highpLoop, slotCount, readSlots]
  | cons st rest ih =>
      match hctx : st.ctx with
      | none =>
          have hsc : slotCount (st :: rest) = slotCount rest + 1 := by
            simp [slotCount, hctx]; omega
          have hloop : highpLoop (st :: rest) buf ip =
              highpLoop rest (wr buf (ip - 1) (Slot.fnHighp st.stage)) (ip - 1) := by
            simp [highpLoop, hctx]
          obtain ⟨ih1, ih2, ih3⟩ :=
            ih (wr buf (ip - 1) (Slot.fnHighp st.stage)) (ip - 1)
          refine ⟨?_, ?_, ?_⟩
          · rw [hloop, ih1, hsc]; push_cast; ring
          · intro j hj
            rw [hloop]
            rw [ih2 j (by rw [hsc] at hj; push_cast at hj ⊢; omega)]
            exact wr_other _ _ _ _ (by rw [hsc] at hj; push_cast at hj; omega)
          · rw [hloop, hsc, readSlots_append]
            have hlo : ip - ((slotCount rest + 1 : Nat) : Int) = (ip - 1) - slotCount rest := by
              push_cast; ring
            rw [hlo]
            have hmid : (ip - 1) - (slotCount rest : Int) + (slotCount rest : Nat) = ip - 1 := by
              ring
            rw [hmid, ih3, readSlots_one]
            rw [ih2 (ip - 1) (Or.inl le_rfl), wr_same]
            simp [stageSlotsHighp, hctx]
      | some c =>
          have hsc : slotCount (st :: rest) = slotCount rest + 2 := by
            simp [slotCount, hctx]; omega
          have hloop : highpLoop (st :: rest) buf ip =
              highpLoop rest
                (wr (wr buf (ip - 1) (Slot.ctxVal c)) (ip - 2) (Slot.fnHighp st.stage))
                (ip - 2) := by
            simp [highpLoop, hctx]
          obtain ⟨ih1, ih2, ih3⟩ :=
            ih (wr (wr buf (ip - 1) (Slot.ctxVal c)) (ip - 2) (Slot.fnHighp st.stage)) (ip - 2)
          refine ⟨?_, ?_, ?_⟩
          · rw [hloop, ih1, hsc]; push_cast; ring
          · intro j hj
            rw [hloop]
            rw [ih2 j (by rw [hsc] at hj; push_cast at hj ⊢; omega)]
            rw [wr_other _ _ _ _ (by rw [hsc] at hj; push_cast at hj; omega)]
            exact wr_other _ _ _ _ (by rw [hsc] at hj; push_cast at hj; omega)
          · rw [hloop, hsc, readSlots_append]
            have hlo : ip - ((slotCount rest + 2 : Nat) : Int) = (ip - 2) - slotCount rest := by
              push_cast; ring
            rw [hlo]
            have hmid : (ip - 2) - (slotCount rest : Int) + (slotCount rest : Nat) = ip - 2 := by
              ring
            rw [hmid, ih3, readSlots_two]
            rw [ih2 (ip - 2) (Or.inl le_rfl), wr_same]
            have : ip - 2 + 1 = ip - 1 := by ring
            rw [this, ih2 (ip - 1) (Or.inl (by omega)),
              wr_other _ _ _ _ (by omega), wr_same]
            simp [stageSlotsHighp, hctx]

/-! ### Characterization of the reduced-tier (lowp) loop -/

theorem lowpLoop_spec_ok (L : Nat → Bool) (rp : Int) (stages : List StageList)
    (buf : Int → Slot) (ip : Int)
    (hall : ∀ st ∈ stages, L st.stage = true) :
    (lowpLoop L rp stages buf ip).2 = ip - slotCount stages ∧
    (∀ j, ip ≤ j ∨ j < ip - slotCount stages → (lowpLoop L rp stages buf ip).1 j = buf j) ∧
    readSlots (lowpLoop L rp stages buf ip).1 (ip - slotCount stages) (slotCount stages) =
      stages.reverse.flatMap stageSlotsLowp := by
  induction stages generalizing buf ip with
  | nil => simp [lowpLoop, slotCount, readSlots]
  | cons st rest ih =>
      have hst : L st.stage = true := hall st (List.mem_cons_self st rest)
      have hrest : ∀ s ∈ rest, L s.stage = true :=
        fun s hs => hall s (List.mem_cons_of_mem st hs)
      match hctx : st.ctx with
      | none =>
          have hsc : slotCount (st :: rest) = slotCount rest + 1 := by
            simp [slotCount, hctx]; omega
          have hloop : lowpLoop L rp (st :: rest) buf ip =
              lowpLoop L rp rest (wr buf (ip - 1) (Slot.fnLowp st.stage)) (ip - 1) := by
            simp [lowpLoop, hst, hctx]
          obtain ⟨ih1, ih2, ih3⟩ :=
            ih (wr buf (ip - 1) (Slot.fnLowp st.stage)) (ip - 1) hrest
          refine ⟨?_, ?_, ?_⟩
          · rw [hloop, ih1, hsc]; push_cast; ring
          · intro j hj
            rw [hloop]
            rw [ih2 j (by rw [hsc] at hj; push_cast at hj ⊢; omega)]
            exact wr_other _ _ _ _ (by rw [hsc] at hj; push_cast at hj; omega)
          · rw [hloop, hsc, readSlots_append]
            have hlo : ip - ((slotCount rest + 1 : Nat) : Int) = (ip - 1) - slotCount rest := by
              push_cast; ring
            rw [hlo]
            have hmid : (ip - 1) - (slotCount rest : Int) + (slotCount rest : Nat) = ip - 1 := by
              ring
            rw [hmid, ih3, readSlots_one]
            rw [ih2 (ip - 1) (Or.inl le_rfl), wr_same]
            simp [stageSlotsLowp, hctx]
      | some c =>
          have hsc : slotCount (st :: rest) = slotCount rest + 2 := by
            simp [slotCount, hctx]; omega
          have hloop : lowpLoop L rp (st :: rest) buf ip =
              lowpLoop L rp rest
                (wr (wr buf (ip - 1) (Slot.ctxVal c)) (ip - 2) (Slot.fnLowp st.stage))
                (ip - 2) := by
            simp [lowpLoop, hst, hctx]
          obtain ⟨ih1, ih2, ih3⟩ :=
            ih (wr (wr buf (ip - 1) (Slot.ctxVal c)) (ip - 2) (Slot.fnLowp st.stage))
              (ip - 2) hrest
          refine ⟨?_, ?_, ?_⟩
          · rw [hloop, ih1, hsc]; push_cast; ring
          · intro j hj
            rw [hloop]
            rw [ih2 j (by rw [hsc] at hj; push_cast at hj ⊢; omega)]
            rw [wr_other _ _ _ _ (by rw [hsc] at hj; push_cast at hj; omega)]
            exact wr_other _ _ _ _ (by rw [hsc] at hj; push_cast at hj; omega)
          · rw [hloop, hsc, readSlots_append]
            have hlo : ip - ((slotCount rest + 2 : Nat) : Int) = (ip - 2) - slotCount rest := by
              push_cast; ring
            rw [hlo]
            have hmid : (ip - 2) - (slotCount rest : Int) + (slotCount rest : Nat) = ip - 2 := by
              ring
            rw [hmid, ih3, readSlots_two]
            rw [ih2 (ip - 2) (Or.inl le_rfl), wr_same]
            have : ip - 2 + 1 = ip - 1 := by ring
            rw [this, ih2 (ip - 1) (Or.inl (by omega)),
              wr_other _ _ _ _ (by omega), wr_same]
            simp [stageSlotsLowp, hctx]

theorem lowpLoop_fail (L : Nat → Bool) (rp : Int) (stages : List StageList)
    (buf : Int → Slot) (ip : Int)
    (hbad : ∃ st ∈ stages, L st.stage = false) :
    (lowpLoop L rp stages buf ip).2 = rp := by
  induction stages generalizing buf ip with
  | nil => obtain ⟨st, hmem, _⟩ := hbad; exact absurd hmem (List.not_mem_nil st)
  | cons st rest ih =>
      by_cases hst : L st.stage = true
      · have hbad' : ∃ s ∈ rest, L s.stage = false := by
          obtain ⟨s, hmem, hs⟩ := hbad
          rcases List.mem_cons.mp hmem with heq | hmem'
          · rw [heq] at hs; rw [hs] at hst; exact absurd hst (by simp)
          · exact ⟨s, hmem', hs⟩
        rcases hctx : st.ctx with _ | c
        · have hrec := ih (wr buf (ip - 1) (Slot.fnLowp st.stage)) (ip - 1) hbad'
          simpa [lowpLoop, hst, hctx] using hrec
        · have hrec :=
            ih (wr (wr buf (ip - 1) (Slot.ctxVal c)) (ip - 2) (Slot.fnLowp st.stage))
              (ip - 2) hbad'
          simpa [lowpLoop, hst, hctx] using hrec
      · simp [lowpLoop, hst]

theorem lowpLoop_frame (L : Nat → Bool) (rp : Int) (stages : List StageList)
    (buf : Int → Slot) (ip : Int) :
    ∀ j, ip ≤ j ∨ j < ip - slotCount stages → (lowpLoop L rp stages buf ip).1 j = buf j := by
  induction stages generalizing buf ip with
  | nil => intro j _; simp [lowpLoop]
  | cons st rest ih =>
      intro j hj
      by_cases hst : L st.stage = true
      · match hctx : st.ctx with
        | none =>
            have hsc : slotCount (st :: rest) = slotCount rest + 1 := by
              simp [slotCount, hctx]; omega
            rw [hsc] at hj
            have hloop : lowpLoop L rp (st :: rest) buf ip =
                lowpLoop L rp rest (wr buf (ip - 1) (Slot.fnLowp st.stage)) (ip - 1) := by
              simp [lowpLoop, hst, hctx]
            rw [hloop,
              ih (wr buf (ip - 1) (Slot.fnLowp st.stage)) (ip - 1) j
                (by push_cast at hj ⊢; omega)]
            exact wr_other _ _ _ _ (by push_cast at hj; omega)
        | some c =>
            have hsc : slotCount (st :: rest) = slotCount rest + 2 := by
              simp [slotCount, hctx]; omega
            rw [hsc] at hj
            have hloop : lowpLoop L rp (st :: rest) buf ip =
                lowpLoop L rp rest
                  (wr (wr buf (ip - 1) (Slot.ctxVal c)) (ip - 2) (Slot.fnLowp st.stage))
                  (ip - 2) := by
              simp [lowpLoop, hst, hctx]
            rw [hloop,
              ih (wr (wr buf (ip - 1) (Slot.ctxVal c)) (ip - 2) (Slot.fnLowp st.stage))
                (ip - 2) j (by push_cast at hj ⊢; omega),
              wr_other _ _ _ _ (by push_cast at hj; omega)]
            exact wr_other _ _ _ _ (by push_cast at hj; omega)
      · simp [lowpLoop, hst]

/-! ### Characterization of `build_pipeline` -/

theorem build_pipeline_lowp_spec (L : Nat → Bool) (stages : List StageList)
    (buf : Int → Slot) (ip : Int)
    (hall : ∀ st ∈ stages, L st.stage = true) :
    (build_pipeline L stages buf ip).2.2 = StartPipelineFn.start_pipeline_lowp ∧
    (build_pipeline L stages buf ip).2.1 = ip - (slotCount stages + 1) ∧
    (∀ j, ip ≤ j ∨ j < ip - (slotCount stages + 1) →
      (build_pipeline L stages buf ip).1 j = buf j) ∧
    progRegion (build_pipeline L stages buf ip).1 (ip - (slotCount stages + 1)) ip =
      stages.reverse.flatMap stageSlotsLowp ++ [Slot.justReturnLowp] := by
  obtain ⟨h1, h2, h3⟩ :=
    lowpLoop_spec_ok L ip stages (wr buf (ip - 1) Slot.justReturnLowp) (ip - 1) hall
  have hcond :
      (lowpLoop L ip stages (wr buf (ip - 1) Slot.justReturnLowp) (ip - 1)).2 ≠ ip := by
    rw [h1]
    have hnn : (0 : Int) ≤ (slotCount stages : Int) := Int.natCast_nonneg _
    omega
  have hbuild : build_pipeline L stages buf ip =
      ((lowpLoop L ip stages (wr buf (ip - 1) Slot.justReturnLowp) (ip - 1)).1,
       (lowpLoop L ip stages (wr buf (ip - 1) Slot.justReturnLowp) (ip - 1)).2,
       StartPipelineFn.start_pipeline_lowp) := by
    simp only [build_pipeline]
    rw [if_pos hcond]
  refine ⟨by rw [hbuild], ?_, ?_, ?_⟩
  · rw [hbuild]
    simp only
    rw [h1]; ring
  · intro j hj
    rw [hbuild]
    simp only
    rw [h2 j (by omega)]
    exact wr_other _ _ _ _ (by omega)
  · rw [hbuild]
    simp only [progRegion]
    have hlen : (ip - (ip - ((slotCount stages : Int) + 1))).toNat = slotCount stages + 1 := by
      have hnn : (0 : Int) ≤ (slotCount stages : Int) := Int.natCast_nonneg _
      omega
    rw [hlen, readSlots_append]
    have hlo : ip - ((slotCount stages : Int) + 1) = (ip - 1) - slotCount stages := by ring
    rw [hlo, h3]
    have hmid : (ip - 1) - (slotCount stages : Int) + (slotCount stages : Nat) = ip - 1 := by
      ring
    rw [hmid, readSlots_one, h2 (ip - 1) (Or.inl le_rfl), wr_same]

theorem build_pipeline_highp_spec (L : Nat → Bool) (stages : List StageList)
    (buf : Int → Slot) (ip : Int)
    (hbad : ∃ st ∈ stages, L st.stage = false) :
    (build_pipeline L stages buf ip).2.2 = StartPipelineFn.start_pipeline_highp ∧
    (build_pipeline L stages buf ip).2.1 = ip - (slotCount stages + 1) ∧
    (∀ j, ip ≤ j ∨ j < ip - (slotCount stages + 1) →
      (build_pipeline L stages buf ip).1 j = buf j) ∧
    progRegion (build_pipeline L stages buf ip).1 (ip - (slotCount stages + 1)) ip =
      stages.reverse.flatMap stageSlotsHighp ++ [Slot.justReturnHighp] := by
  have hfail :
      (lowpLoop L ip stages (wr buf (ip - 1) Slot.justReturnLowp) (ip - 1)).2 = ip :=
    lowpLoop_fail L ip stages _ _ hbad
  obtain ⟨h1, h2, h3⟩ :=
    highpLoop_spec stages
      (wr (lowpLoop L ip stages (wr buf (ip - 1) Slot.justReturnLowp) (ip - 1)).1
        (ip - 1) Slot.justReturnHighp) (ip - 1)
  have hbuild : build_pipeline L stages buf ip =
      ((highpLoop stages
          (wr (lowpLoop L ip stages (wr buf (ip - 1) Slot.justReturnLowp) (ip - 1)).1
            (ip - 1) Slot.justReturnHighp) (ip - 1)).1,
       (highpLoop stages
          (wr (lowpLoop L ip stages (wr buf (ip - 1) Slot.justReturnLowp) (ip - 1)).1
            (ip - 1) Slot.justReturnHighp) (ip - 1)).2,
       StartPipelineFn.start_pipeline_highp) := by
    simp only [build_pipeline]
    rw [if_neg (by rw [hfail]; simp), hfail]
  refine ⟨by rw [hbuild], ?_, ?_, ?_⟩
  · rw [hbuild]
    simp only
    rw [h1]; ring
  · intro j hj
    rw [hbuild]
    simp only
    rw [h2 j (by omega)]
    rw [wr_other _ _ _ _ (by omega)]
    rw [lowpLoop_frame L ip stages _ (ip - 1) j (by omega)]
    exact wr_other _ _ _ _ (by omega)
  · rw [hbuild]
    simp only [progRegion]
    have hlen : (ip - (ip - ((slotCount stages : Int) + 1))).toNat = slotCount stages + 1 := by
      have hnn : (0 : Int) ≤ (slotCount stages : Int) := Int.natCast_nonneg _
      omega
    rw [hlen, readSlots_append]
    have hlo : ip - ((slotCount stages : Int) + 1) = (ip - 1) - slotCount stages := by ring
    rw [hlo, h3]
    have hmid : (ip - 1) - (slotCount stages : Int) + (slotCount stages : Nat) = ip - 1 := by
      ring
    rw [hmid, readSlots_one, h2 (ip - 1) (Or.inl le_rfl), wr_same]

/-! ### Auxiliary lemmas for the claims -/

theorem slotCount_le (stages : List StageList) : slotCount stages ≤ 2 * stages.length := by
  induction stages with
  | nil => simp [slotCount]
  | cons st rest ih =>
      rcases st with ⟨k, hc⟩
      rcases hc with _ | c <;> simp [slotCount] <;> omega

theorem stageSlotsHighp_fullTier (st : StageList) :
    ∀ s ∈ stageSlotsHighp st, isFullTierSlot s = true := by
  intro s hs
  rcases st with ⟨k, hc⟩
  rcases hc with _ | c
  · simp [stageSlotsHighp] at hs
    rw [hs]; rfl
  · simp [stageSlotsHighp] at hs
    rcases hs with h | h <;> rw [h] <;> rfl

theorem lowpLoopMem_nodes (L : Nat → Bool) (rp : Int) :
    ∀ (fuel : Nat) (m : Mem) (p : Option Nat) (ip : Int) (a : Nat),
      ((lowpLoopMem L rp fuel m p ip).1).nodes a = m.nodes a := by
  intro fuel
  induction fuel with
  | zero => intro m p ip a; rfl
  | succ f ih =>
      intro m p ip a
      rcases p with _ | addr
      · rfl
      · by_cases hst : L (m.nodes addr).stage = true
        · rcases hctx : (m.nodes addr).ctx with _ | c
          · simp only [lowpLoopMem, hst, hctx, if_true]
            exact ih _ _ _ a
          · simp only [lowpLoopMem, hst, hctx, if_true]
            exact ih _ _ _ a
        · simp only [lowpLoopMem, Bool.not_eq_true] at *
          simp only [lowpLoopMem, hst]
          rfl

theorem highpLoopMem_nodes :
    ∀ (fuel : Nat) (m : Mem) (p : Option Nat) (ip : Int) (a : Nat),
      ((highpLoopMem fuel m p ip).1).nodes a = m.nodes a := by
  intro fuel
  induction fuel with
  | zero => intro m p ip a; rfl
  | succ f ih =>
      intro m p ip a
      rcases p with _ | addr
      · rfl
      · rcases hctx : (m.nodes addr).ctx with _ | c
        · simp only [highpLoopMem, hctx]
          exact ih _ _ _ a
        · simp only [highpLoopMem, hctx]
          exact ih _ _ _ a

/-! ### Claim theorems -/

/-- C1: for every stage list in which every node's stage kind has a non-null
entry in the reduced-tier (lowp) stage table, `build_pipeline` returns the
reduced-tier entry point `start_pipeline_lowp` and
`skia_pipe_raster_build_pipeline` returns `false` (reduced tier selected). -/
theorem claim_C1_reduced_tier_selected (L : Nat → Bool) (stages : List StageList)
    (buf : Int → Slot) (ip : Int)
    (hall : ∀ st ∈ stages, L st.stage = true) :
    (build_pipeline L stages buf ip).2.2 = StartPipelineFn.start_pipeline_lowp ∧
    (skia_pipe_raster_build_pipeline L stages buf ip).2 = false := by
  have h := (build_pipeline_lowp_spec L stages buf ip hall).1
  exact ⟨h, by simp only [skia_pipe_raster_build_pipeline, h]; rfl⟩

/-- Witness for C1: a two-stage list under a lowp table covering every kind. -/
theorem claim_C1_witness :
    (∀ st ∈ [(⟨3, some 7⟩ : StageList), ⟨5, none⟩], (fun _ => true) st.stage = true) ∧
    (build_pipeline (fun _ => true) [⟨3, some 7⟩, ⟨5, none⟩]
        (fun _ => Slot.ctxVal 0) 0).2.2 = StartPipelineFn.start_pipeline_lowp ∧
    (skia_pipe_raster_build_pipeline (fun _ => true) [⟨3, some 7⟩, ⟨5, none⟩]
        (fun _ => Slot.ctxVal 0) 0).2 = false :=
  ⟨by decide,
    claim_C1_reduced_tier_selected (fun _ => true) [⟨3, some 7⟩, ⟨5, none⟩]
      (fun _ => Slot.ctxVal 0) 0 (by decide)⟩

/-- C2: for every stage list containing at least one node whose stage kind has
a null entry in the lowp table, `build_pipeline` falls back to the full tier:
it returns `start_pipeline_highp` and `skia_pipe_raster_build_pipeline`
returns `true`; the functions return normally, so the fallback is observable
only through that returned tier indicator. -/
theorem claim_C2_full_tier_fallback (L : Nat → Bool) (stages : List StageList)
    (buf : Int → Slot) (ip : Int)
    (hbad : ∃ st ∈ stages, L st.stage = false) :
    (build_pipeline L stages buf ip).2.2 = StartPipelineFn.start_pipeline_highp ∧
    (skia_pipe_raster_build_pipeline L stages buf ip).2 = true := by
  have h := (build_pipeline_highp_spec L stages buf ip hbad).1
  exact ⟨h, by simp only [skia_pipe_raster_build_pipeline, h]; rfl⟩

/-- Witness for C2: a one-stage list whose kind lacks a lowp entry. -/
theorem claim_C2_witness :
    (∃ st ∈ [(⟨4, none⟩ : StageList)], (fun _ => false) st.stage = false) ∧
    (build_pipeline (fun _ => false) [⟨4, none⟩]
        (fun _ => Slot.ctxVal 0) 0).2.2 = StartPipelineFn.start_pipeline_highp ∧
    (skia_pipe_raster_build_pipeline (fun _ => false) [⟨4, none⟩]
        (fun _ => Slot.ctxVal 0) 0).2 = true :=
  ⟨⟨⟨4, none⟩, by decide, rfl⟩,
    claim_C2_full_tier_fallback (fun _ => false) [⟨4, none⟩]
      (fun _ => Slot.ctxVal 0) 0 ⟨⟨4, none⟩, by decide, rfl⟩⟩

/-- C6: for the empty stage list (a null `StageList` pointer) `build_pipeline`
writes exactly one slot — the reduced-tier sentinel, at index `bufferEnd - 1`
— returns the program start one slot below `bufferEnd`, selects the reduced
tier, and `skia_pipe_raster_build_pipeline` returns `false`. -/
theorem claim_C6_empty_list (L : Nat → Bool) (buf : Int → Slot) (ip : Int) :
    build_pipeline L [] buf ip =
      (wr buf (ip - 1) Slot.justReturnLowp, ip - 1,
        StartPipelineFn.start_pipeline_lowp) ∧
    (skia_pipe_raster_build_pipeline L [] buf ip).2 = false := by
  have h1 : build_pipeline L [] buf ip =
      (wr buf (ip - 1) Slot.justReturnLowp, ip - 1,
        StartPipelineFn.start_pipeline_lowp) := by
    simp only [build_pipeline, lowpLoop]
    rw [if_pos (by omega : (ip - 1 : Int) ≠ ip)]
  exact ⟨h1, by simp only [skia_pipe_raster_build_pipeline, h1]; rfl⟩

/-- C3: for every stage list, lowp table and buffer, the program region
returned by `build_pipeline` — from the returned start cursor up to
`bufferEnd` — replays the stages in append order (the oldest-appended stage,
the tail of the walk, comes first), each stage contributing its selected-tier
function pointer with its context pointer, when present, in the slot
immediately after, followed by the selected tier's sentinel. -/
theorem claim_C3_replay_append_order (L : Nat → Bool) (stages : List StageList)
    (buf : Int → Slot) (ip : Int) :
    progRegion (build_pipeline L stages buf ip).1
        (build_pipeline L stages buf ip).2.1 ip =
      stages.reverse.flatMap (stageSlots (build_pipeline L stages buf ip).2.2) ++
        [sentinelSlot (build_pipeline L stages buf ip).2.2] := by
  by_cases hall : ∀ st ∈ stages, L st.stage = true
  · obtain ⟨h1, h2, _h3, h4⟩ := build_pipeline_lowp_spec L stages buf ip hall
    rw [h1, h2, h4]
    rfl
  · push_neg at hall
    simp only [ne_eq, Bool.not_eq_true] at hall
    obtain ⟨h1, h2, _h3, h4⟩ := build_pipeline_highp_spec L stages buf ip hall
    rw [h1, h2, h4]
    rfl

/-- C4: when some stage kind lacks a lowp entry, the region from the returned
program start up to `bufferEnd` is exactly the full-tier program — highp
function pointers, their context pointers, and the highp sentinel — so every
slot of the returned program holds full-tier data and no partially-written
reduced-tier entry is visible. -/
theorem claim_C4_rollback_full_tier_only (L : Nat → Bool) (stages : List StageList)
    (buf : Int → Slot) (ip : Int)
    (hbad : ∃ st ∈ stages, L st.stage = false) :
    progRegion (build_pipeline L stages buf ip).1
        (build_pipeline L stages buf ip).2.1 ip =
      stages.reverse.flatMap stageSlotsHighp ++ [Slot.justReturnHighp] ∧
    ∀ s ∈ progRegion (build_pipeline L stages buf ip).1
        (build_pipeline L stages buf ip).2.1 ip, isFullTierSlot s = true := by
  obtain ⟨_h1, h2, _h3, h4⟩ := build_pipeline_highp_spec L stages buf ip hbad
  rw [h2]
  refine ⟨h4, ?_⟩
  rw [h4]
  intro s hs
  rcases List.mem_append.mp hs with hmem | hmem
  · obtain ⟨st, _, hsl⟩ := List.mem_flatMap.mp hmem
    exact stageSlotsHighp_fullTier st s hsl
  · simp only [List.mem_singleton] at hmem
    rw [hmem]
    rfl

/-- Witness for C4: a one-stage list whose kind lacks a lowp entry. -/
theorem claim_C4_witness :
    (∃ st ∈ [(⟨1, none⟩ : StageList)], (fun _ => false) st.stage = false) ∧
    (progRegion
        (build_pipeline (fun _ => false) [⟨1, none⟩] (fun _ => Slot.ctxVal 0) 0).1
        (build_pipeline (fun _ => false) [⟨1, none⟩] (fun _ => Slot.ctxVal 0) 0).2.1 0 =
      [(⟨1, none⟩ : StageList)].reverse.flatMap stageSlotsHighp ++ [Slot.justReturnHighp] ∧
    ∀ s ∈ progRegion
        (build_pipeline (fun _ => false) [⟨1, none⟩] (fun _ => Slot.ctxVal 0) 0).1
        (build_pipeline (fun _ => false) [⟨1, none⟩] (fun _ => Slot.ctxVal 0) 0).2.1 0,
      isFullTierSlot s = true) :=
  ⟨⟨⟨1, none⟩, by decide, rfl⟩,
    claim_C4_rollback_full_tier_only (fun _ => false) [⟨1, none⟩]
      (fun _ => Slot.ctxVal 0) 0 ⟨⟨1, none⟩, by decide, rfl⟩⟩

/-- C5: each build — the reduced-tier attempt, failed or not, and the
full-tier fallback — writes only within the `2 * n + 1` slots directly below
`bufferEnd` for a list of `n` nodes: every slot index below
`bufferEnd - (2*n+1)` or at/above `bufferEnd` still holds its original
contents after `build_pipeline`. -/
theorem claim_C5_write_bounds (L : Nat → Bool) (stages : List StageList)
    (buf : Int → Slot) (ip : Int) (j : Int)
    (hout : j < ip - (2 * stages.length + 1) ∨ ip ≤ j) :
    (build_pipeline L stages buf ip).1 j = buf j := by
  have hsc : (slotCount stages : Int) ≤ 2 * stages.length := by
    exact_mod_cast slotCount_le stages
  by_cases hall : ∀ st ∈ stages, L st.stage = true
  · exact (build_pipeline_lowp_spec L stages buf ip hall).2.2.1 j
      (by omega)
  · push_neg at hall
    simp only [ne_eq, Bool.not_eq_true] at hall
    exact (build_pipeline_highp_spec L stages buf ip hall).2.2.1 j
      (by omega)

/-- Witness for C5: the slot at `bufferEnd` itself is untouched. -/
theorem claim_C5_witness :
    ((5 : Int) < 0 - (2 * ([(⟨2, some 3⟩ : StageList)].length : Int) + 1) ∨ (0 : Int) ≤ 5) ∧
    (build_pipeline (fun _ => true) [⟨2, some 3⟩] (fun _ => Slot.ctxVal 8) 0).1 5 =
      (fun _ => Slot.ctxVal 8) 5 :=
  ⟨Or.inr (by norm_num),
    claim_C5_write_bounds (fun _ => true) [⟨2, some 3⟩]
      (fun _ => Slot.ctxVal 8) 0 5 (Or.inr (by norm_num))⟩

/-- C7 counterexample: the claim that `skia_pipe_raster_run_pipeline` passes
the mathematical sum `x1 = x + w` fails at `x = 2^32 - 1`, `w = 1`: the
32-bit unsigned addition wraps and the executor receives `x1 = 0`, not
`2^32`. -/
theorem claim_C7_counterexample :
    ¬ (skia_pipe_raster_run_pipeline 0 true 4294967295 0 1 0).x1 =
        4294967295 + 1 := by
  decide

/-- C7 (amended): for every program pointer, tier flag and coordinates,
`skia_pipe_raster_run_pipeline` invokes the full-tier entry point exactly
when `is_highp` is true and the reduced-tier entry point exactly when it is
false, passing the program pointer unchanged and the rectangle
`x0 = x mod 2^32`, `y0 = y mod 2^32`, `x1 = (x + w) mod 2^32`,
`y1 = (y + h) mod 2^32` — the arithmetic of its `unsigned int` parameters —
and performs no other action: its entire behaviour is that single call. -/
theorem claim_C7_run_dispatch (program : Nat) (is_highp : Bool) (x y w h : Nat) :
    skia_pipe_raster_run_pipeline program is_highp x y w h =
      { fn := if is_highp then StartPipelineFn.start_pipeline_highp
              else StartPipelineFn.start_pipeline_lowp,
        x0 := x % 4294967296, y0 := y % 4294967296,
        x1 := (x + w) % 4294967296, y1 := (y + h) % 4294967296,
        program := program } := by
  cases is_highp <;>
    (simp only [skia_pipe_raster_run_pipeline, if_true, if_false,
       Bool.false_eq_true, PipelineCall.mk.injEq, true_and, and_true]
     omega)

/-- C8 (executor chunking; the executors `start_pipeline_highp` /
`start_pipeline_lowp` are implemented outside the sources and modelled from
the spec by `rowChunkWidths`): for a positive batch width `S`, a row of width
`W` is processed as `W / S` full-width chunks followed by exactly one tail
chunk of width `W mod S` when `S` does not divide `W`, and by no tail chunk
when `S` divides `W`. -/
theorem claim_C8_row_chunking (S W : Nat) (hS : 0 < S) :
    rowChunkWidths S W =
      List.replicate (W / S) S ++ (if W % S = 0 then [] else [W % S]) := by
  induction W using Nat.strong_induction_on with
  | _ W ih =>
      by_cases hle : S ≤ W
      · rw [rowChunkWidths, dif_pos ⟨hS, hle⟩, ih (W - S) (by omega)]
        have h1 : W / S = (W - S) / S + 1 := by
          rw [Nat.div_eq_sub_div hS hle]
        have h2 : W % S = (W - S) % S := Nat.mod_eq_sub_mod hle
        rw [h1, ← h2, List.replicate_succ, List.cons_append]
      · rw [rowChunkWidths, dif_neg (by omega)]
        have hdiv : W / S = 0 := Nat.div_eq_of_lt (by omega)
        have hmod : W % S = W := Nat.mod_eq_of_lt (by omega)
        by_cases hW : W = 0
        · simp [hW]
        · rw [if_neg hW, hdiv, hmod, if_neg hW]
          simp

/-- Witness for C8 at `S = 4`, `W = 10`: two full chunks and a tail of 2. -/
theorem claim_C8_witness :
    0 < 4 ∧
    rowChunkWidths 4 10 =
      List.replicate (10 / 4) 4 ++ (if 10 % 4 = 0 then [] else [10 % 4]) :=
  ⟨by decide, claim_C8_row_chunking 4 10 (by decide)⟩

/-- C9: `build_pipeline` never writes to any `StageList` node: in the
memory-level embedding, for every fuel bound, memory, list head pointer and
cursor, every node of the heap — its `prev`, `stage` and `ctx` fields — is
identical before and after the build; consequently two builds into
independent buffers from lists sharing a common prefix leave the shared
prefix nodes unchanged. -/
theorem claim_C9_nodes_unchanged (L : Nat → Bool) (fuel : Nat) (m : Mem)
    (stages : Option Nat) (ip : Int) :
    ∀ a, ((build_pipeline_mem L fuel m stages ip).1).nodes a = m.nodes a := by
  intro a
  simp only [build_pipeline_mem]
  split
  · exact lowpLoopMem_nodes L ip fuel _ stages (ip - 1) a
  · rw [highpLoopMem_nodes fuel _ stages _ a]
    exact lowpLoopMem_nodes L ip fuel _ stages (ip - 1) a

/-- C10: `skia_pipe_raster_run_pipeline` computes the rectangle in 32-bit
unsigned arithmetic (its defining declaration takes `unsigned int` although
the header declares `size_t`): every coordinate reaches the executor reduced
modulo `2^32`, the right and bottom edges are `(x+w) mod 2^32` and
`(y+h) mod 2^32`, and whenever `x + w ≥ 2^32` the executor receives the
wrapped value rather than the mathematical sum. -/
theorem claim_C10_unsigned_wraparound (program : Nat) (is_highp : Bool)
    (x y w h : Nat) :
    (skia_pipe_raster_run_pipeline program is_highp x y w h).x0 = x % 4294967296 ∧
    (skia_pipe_raster_run_pipeline program is_highp x y w h).y0 = y % 4294967296 ∧
    (skia_pipe_raster_run_pipeline program is_highp x y w h).x1 =
      (x + w) % 4294967296 ∧
    (skia_pipe_raster_run_pipeline program is_highp x y w h).y1 =
      (y + h) % 4294967296 ∧
    (4294967296 ≤ x + w →
      (skia_pipe_raster_run_pipeline program is_highp x y w h).x1 ≠ x + w) := by
  cases is_highp <;>
    (simp only [skia_pipe_raster_run_pipeline, if_true, if_false,
       Bool.false_eq_true, true_and, and_true, ne_eq]
     omega)

/-- Witness for C10: at `x = 2^32 - 1`, `w = 1` the wrapped right edge
differs from the mathematical sum. -/
theorem claim_C10_witness :
    4294967296 ≤ 4294967295 + 1 ∧
    (skia_pipe_raster_run_pipeline 0 false 4294967295 0 1 0).x1 ≠ 4294967295 + 1 :=
  ⟨by decide,
    (claim_C10_unsigned_wraparound 0 false 4294967295 0 1 0).2.2.2.2 (by decide)⟩
